import Mathlib

/-!
# PyDESeq2 pipeline: shallow embedding and verification

The repository's source files are the two demonstration notebooks
(`PyDESeq2_minimal_example.ipynb`, `PyDESeq2_step_by_step_pipeline.ipynb`);
they call the `pydeseq2` library (`DeseqDataSet`, `DeseqStats`) whose method
bodies are not part of the source tree.  The stage semantics below are
therefore modelled from the specification's component descriptions, while the
stage *ordering* is taken from the notebook cells, which are genuine source.
-/

namespace PyDESeq2

/-! ## Dispersion estimation: MAP shrinkage and the outlier rule (spec 4.3) -/

/-- Per-gene dispersion values produced by the three sub-stages of the
Dispersion Estimator that precede `fit_MAP_dispersions`:
`genewise` (raw MLE), `trend` (fitted curve value) and `MAP`
(the shrunken estimate). -/
structure DispersionState (m : ℕ) where
  genewise : Fin m → ℚ
  trend : Fin m → ℚ
  MAP : Fin m → ℚ

/-- Modelled from the spec: a gene is a dispersion outlier when its genewise
MLE exceeds the trend-curve value by more than a configured multiple
(`outlierMult`) of the dispersion-prior variance (`priorDispVar`).
The body of `DeseqDataSet.fit_MAP_dispersions` is not in the source tree. -/
def isDispOutlier {m : ℕ} (priorDispVar outlierMult : ℚ)
    (st : DispersionState m) (g : Fin m) : Bool :=
  decide (st.trend g + outlierMult * priorDispVar < st.genewise g)

/-- Modelled from the spec: `fit_MAP_dispersions` sets each gene's `final`
dispersion to its MAP value, except that dispersion outliers keep their raw
genewise MLE (shrinkage is skipped for them). -/
def fit_MAP_dispersions {m : ℕ} (priorDispVar outlierMult : ℚ)
    (st : DispersionState m) : Fin m → ℚ :=
  fun g =>
    if isDispOutlier priorDispVar outlierMult st g then st.genewise g
    else st.MAP g

/-! ## Normalizer: median-of-ratios size factors (spec 4.1, 7) -/

/-- Fatal error raised by the Normalizer when the median-of-ratios
computation cannot proceed. -/
inductive DeseqError : Type
  | DegenerateDesignError : DeseqError
deriving DecidableEq

/-- Geometric mean across samples of one gene's row of counts. -/
noncomputable def geomMean {n : ℕ} (row : Fin n → ℚ) : ℝ :=
  (∏ j, (row j : ℝ)) ^ ((n : ℝ)⁻¹)

/-- Modelled from the spec: genes eligible for the median-of-ratios
computation are those with a strictly positive geometric mean of counts
across samples, i.e. with no zero count (counts are non-negative). -/
def eligibleGenes {m n : ℕ} (counts : Fin m → Fin n → ℚ) : List (Fin m) :=
  (List.finRange m).filter (fun g => decide (∀ j, 0 < counts g j))

/-- Median of a list of reals: the middle element of the ascending sort, or
the mean of the two middle elements when the length is even. -/
noncomputable def median (l : List ℝ) : ℝ :=
  if l.length % 2 = 1 then (l.insertionSort (· ≤ ·)).getD (l.length / 2) 0
  else ((l.insertionSort (· ≤ ·)).getD (l.length / 2 - 1) 0 +
        (l.insertionSort (· ≤ ·)).getD (l.length / 2) 0) / 2

/-- Modelled from the spec: for a fixed sample, the per-gene ratios of that
sample's count to the gene's cross-sample geometric mean, over eligible
genes only. -/
noncomputable def countRatios {m n : ℕ} (counts : Fin m → Fin n → ℚ)
    (j : Fin n) : List ℝ :=
  (eligibleGenes counts).map
    (fun g => (counts g j : ℝ) / geomMean (fun j' => counts g j'))

/-- Modelled from the spec: the size factor of a sample is the median of the
per-gene count ratios across all eligible genes. -/
noncomputable def sizeFactor {m n : ℕ} (counts : Fin m → Fin n → ℚ)
    (j : Fin n) : ℝ :=
  median (countRatios counts j)

/-- Modelled from the spec: `DeseqDataSet.fit_size_factors` fails with
`DegenerateDesignError` when fewer than one gene is eligible, and otherwise
produces the size factors (its only effect). -/
noncomputable def fit_size_factors {m n : ℕ} (counts : Fin m → Fin n → ℚ) :
    Except DeseqError (Fin n → ℝ) :=
  if (eligibleGenes counts).length < 1 then
    Except.error DeseqError.DegenerateDesignError
  else Except.ok (fun j => sizeFactor counts j)

/-! ## Bounded per-gene optimization loops (spec 4.2 / 5, `fit_LFC`) -/

/-- Modelled from the spec: every per-gene optimization (IRLS in both call
modes, the dispersion MLE/MAP searches, LFC shrinkage) repeatedly applies an
update `step` until the stopping test `done` holds between consecutive
iterates or the iteration cap is exhausted.  The result is the last iterate
together with a convergence flag; `false` means the cap was reached, which is
reported per gene as a warning, never as an error. -/
def boundedIterate {α : Type} (step : α → α) (done : α → α → Bool) :
    ℕ → α → α × Bool
  | 0, x => (x, false)
  | n + 1, x =>
    let xn := step x
    if done x xn then (xn, true) else boundedIterate step done n xn

/-- Modelled from the spec: the IRLS convergence test used in coefficient
mode — every coefficient of the update moves by less than the tolerance. -/
def coefConverged {p : ℕ} (tol : ℚ) (x y : Fin p → ℚ) : Bool :=
  decide (∀ i, |x i - y i| < tol)

/-- Modelled from the spec: `DeseqDataSet.fit_LFC` runs the IRLS update
`step` (working response/weights plus a ridge-penalized weighted
least-squares solve, per gene) from `x0` until every coefficient changes by
less than `tol`, or for at most `maxIter` iterations. -/
def fit_LFC_from {p : ℕ} (step : (Fin p → ℚ) → (Fin p → ℚ)) (tol : ℚ)
    (maxIter : ℕ) (x0 : Fin p → ℚ) : (Fin p → ℚ) × Bool :=
  boundedIterate step (coefConverged tol) maxIter x0

/-! ## Hypothesis Tester: Wald test and Cook's filtering (spec 4.4, 4.5) -/

/-- Per-gene inputs of the Wald test: the contrast coefficient estimate from
a completed GLM fit, the corresponding diagonal entry of the coefficient
covariance matrix, and the flag set when the gene was marked outlier-unfit
by the Outlier Detector. -/
structure WaldGene where
  coef : ℝ
  covDiag : ℝ
  unfit : Bool

/-- Modelled from the spec: the Wald statistic is the coefficient estimate
divided by the square root of the covariance diagonal entry. -/
noncomputable def waldStatistic (g : WaldGene) : ℝ :=
  g.coef / Real.sqrt g.covDiag

/-- Modelled from the spec: `DeseqStats._cooks_filtering` replaces by an
undefined value the p-value of every gene flagged outlier-unfit, and leaves
the others alone. -/
def cooks_filtering (unfit : Bool) (p : Option ℝ) : Option ℝ :=
  if unfit then none else p

/-- Modelled from the spec: `DeseqStats.run_wald_test` computes the two-sided
p-value `2 * (1 - normalCdf |statistic|)` from the standard normal CDF of the
absolute statistic; Cook's filtering then masks outlier-unfit genes. -/
noncomputable def run_wald_test (normalCdf : ℝ → ℝ) (g : WaldGene) :
    ℝ × Option ℝ :=
  (waldStatistic g,
   cooks_filtering g.unfit (some (2 * (1 - normalCdf |waldStatistic g|))))

/-! ## Multiple-Testing Corrector: Benjamini-Hochberg (spec 4.6) -/

/-- BH step-up terms of an ascending block of defined p-values whose first
element has 0-based index `k` among `m` defined p-values: the term for the
p-value of rank `k + 1` is `m * p / (k + 1)`. -/
def bhTerms (m : ℕ) : ℕ → List ℚ → List ℚ
  | _, [] => []
  | k, p :: ps => (m : ℚ) * p / ((k : ℚ) + 1) :: bhTerms m (k + 1) ps

/-- Adjusted values of an ascending-sorted block of defined p-values starting
at 0-based index `k`: each entry is the minimum of 1 and of every BH term at
its own index or beyond — the step-up suffix minimum, clipped at 1. -/
def bhAdjAux (m : ℕ) : ℕ → List ℚ → List ℚ
  | _, [] => []
  | k, p :: ps => (bhTerms m k (p :: ps)).foldr min 1 :: bhAdjAux m (k + 1) ps

/-- Benjamini-Hochberg adjusted values of an ascending-sorted list of
defined p-values. -/
def bhAdjSorted (l : List ℚ) : List ℚ := bhAdjAux l.length 0 l

/-- The defined p-values, sorted ascending. -/
def sortedPs (ps : List (Option ℚ)) : List ℚ :=
  (ps.filterMap id).insertionSort (· ≤ ·)

/-- Adjusted p-value assigned to a defined raw p-value `p`: the adjusted
entry at `p`'s first position in the ascending-sorted defined p-values.
(Ties receive equal adjusted values, so the position choice is
immaterial.) -/
def padjOf (ps : List (Option ℚ)) (p : ℚ) : ℚ :=
  (bhAdjSorted (sortedPs ps)).getD ((sortedPs ps).indexOf p) 1

/-- Modelled from the spec: `DeseqStats._p_value_adjustment` applies the BH
step-up procedure to the set of defined p-values and leaves undefined
entries undefined in the adjusted column. -/
def p_value_adjustment (ps : List (Option ℚ)) : List (Option ℚ) :=
  ps.map (fun o => o.map (padjOf ps))

/-! ## Independent filtering (spec 4.6, `_independent_filtering`) -/

/-- Number of rejections: defined adjusted p-values at or below `alpha`. -/
def rejections (adj : List (Option ℚ)) (alpha : ℚ) : ℕ :=
  (adj.filterMap id).countP (fun q => decide (q ≤ alpha))

/-- Modelled from the spec: filtering at threshold `t` discards from the
multiple-testing set the genes whose filter statistic (mean normalized
count) lies below `t`, leaving their p-values undefined. -/
def filterPs (stat : List ℚ) (ps : List (Option ℚ)) (t : ℚ) :
    List (Option ℚ) :=
  List.zipWith (fun s p => if s < t then none else p) stat ps

/-- Rejection count obtained by BH-adjusting after filtering at `t`. -/
def rejAt (stat : List ℚ) (ps : List (Option ℚ)) (alpha t : ℚ) : ℕ :=
  rejections (p_value_adjustment (filterPs stat ps t)) alpha

/-- Modelled from the spec: `DeseqStats._independent_filtering` searches the
grid of quantile thresholds for one maximizing the rejection count at level
`alpha`, BH-adjusts once at that threshold, and falls back to the plain
unfiltered BH adjustment when no threshold improves on the unfiltered
rejection count. -/
def independent_filtering (stat : List ℚ) (ps : List (Option ℚ))
    (alpha : ℚ) (grid : List ℚ) : List (Option ℚ) :=
  match grid.argmax (rejAt stat ps alpha) with
  | none => p_value_adjustment ps
  | some t =>
    if rejAt stat ps alpha t ≤ rejections (p_value_adjustment ps) alpha then
      p_value_adjustment ps
    else p_value_adjustment (filterPs stat ps t)

/-! ## LFC scale conversion (spec 4.2 / 6, `summary`) -/

/-- Modelled from the spec: `DeseqDataSet.fit_LFC` stores log fold changes on
the natural-log scale; `DeseqStats.summary` presents that coefficient on the
log2 scale, dividing the internal value by `ln 2`. -/
noncomputable def summary_log2_lfc (internal_lfc : ℝ) : ℝ :=
  internal_lfc / Real.log 2

/-! ## Pipeline orchestration (both notebooks, spec 2) -/

/-- Configuration flags demonstrated by the notebooks: `refit_cooks` on the
`DeseqDataSet`, `cooks_filter` and `independent_filter` on `DeseqStats`. -/
structure DeseqConfig where
  refit_cooks : Bool
  cooks_filter : Bool
  independent_filter : Bool

/-- The per-stage transition functions of the pipeline over an abstract
pipeline state `σ`.  The bodies of the library methods are not part of the
source tree; the notebooks fix their names and calling order, so each stage
is an opaque-to-us state transformer here. -/
structure Stages (σ : Type) where
  fit_size_factors : σ → σ
  fit_genewise_dispersions : σ → σ
  fit_dispersion_trend : σ → σ
  fit_dispersion_prior : σ → σ
  fit_MAP_dispersions : σ → σ
  fit_LFC : σ → σ
  calculate_cooks : σ → σ
  refit : σ → σ
  run_wald_test : σ → σ
  cooks_filtering : σ → σ
  independent_filtering : σ → σ
  p_value_adjustment : σ → σ
  build_results_df : σ → σ

/-- The step-by-step pipeline exactly as run cell by cell in
`PyDESeq2_step_by_step_pipeline.ipynb`: size factors, genewise dispersions,
dispersion trend, dispersion prior, MAP dispersions, LFC, Cook's distances,
`refit` guarded by `refit_cooks`, Wald tests, Cook's filtering guarded by
`cooks_filter`, then independent filtering or plain p-value adjustment
guarded by `independent_filter`, and finally the results dataframe. -/
def step_by_step_pipeline {σ : Type} (S : Stages σ) (cfg : DeseqConfig)
    (s0 : σ) : σ :=
  let s1 := S.fit_size_factors s0
  let s2 := S.fit_genewise_dispersions s1
  let s3 := S.fit_dispersion_trend s2
  let s4 := S.fit_dispersion_prior s3
  let s5 := S.fit_MAP_dispersions s4
  let s6 := S.fit_LFC s5
  let s7 := S.calculate_cooks s6
  let s8 := if cfg.refit_cooks then S.refit s7 else s7
  let s9 := S.run_wald_test s8
  let s10 := if cfg.cooks_filter then S.cooks_filtering s9 else s9
  let s11 := if cfg.independent_filter then S.independent_filtering s10
             else S.p_value_adjustment s10
  S.build_results_df s11

/-- Modelled from the spec: `DeseqDataSet.deseq2` performs the whole
read-counts modelling in the spec's data-flow order — normalization, the
three dispersion sub-stages, LFC fitting, Cook's distances, and the refit
when `refit_cooks` is set. -/
def deseq2 {σ : Type} (S : Stages σ) (cfg : DeseqConfig) (s0 : σ) : σ :=
  let s := S.fit_size_factors s0
  let s := S.fit_genewise_dispersions s
  let s := S.fit_dispersion_trend s
  let s := S.fit_dispersion_prior s
  let s := S.fit_MAP_dispersions s
  let s := S.fit_LFC s
  let s := S.calculate_cooks s
  if cfg.refit_cooks then S.refit s else s

/-- Modelled from the spec: `DeseqStats.summary` runs the statistical
analysis on a fitted data set — Wald tests, Cook's filtering when
`cooks_filter` is set, multiple-testing adjustment with or without the
independent-filtering search — and builds the results dataframe. -/
def summary {σ : Type} (S : Stages σ) (cfg : DeseqConfig) (s : σ) : σ :=
  let s1 := S.run_wald_test s
  let s2 := if cfg.cooks_filter then S.cooks_filtering s1 else s1
  let s3 := if cfg.independent_filter then S.independent_filtering s2
            else S.p_value_adjustment s2
  S.build_results_df s3

/-- The one-shot pipeline of `PyDESeq2_minimal_example.ipynb`:
`dds.deseq2()` followed by `stat_res.summary()`. -/
def one_shot_pipeline {σ : Type} (S : Stages σ) (cfg : DeseqConfig)
    (s0 : σ) : σ :=
  summary S cfg (deseq2 S cfg s0)

end PyDESeq2

namespace PyDESeq2

/-! ## Theorems -/

/-- Every position of the ascending sort of a positive list holds a positive
value, so the median (a middle element, or the mean of the two middle
elements) of a nonempty positive list is positive. -/
theorem median_pos {l : List ℝ} (hne : l ≠ []) (hpos : ∀ x ∈ l, 0 < x) :
    0 < median l := by
  have hlen : 0 < l.length := List.length_pos.mpr hne
  have hslen : (l.insertionSort (· ≤ ·)).length = l.length :=
    List.length_insertionSort _ l
  have hmem : ∀ i, i < l.length → 0 < (l.insertionSort (· ≤ ·)).getD i 0 := by
    intro i h
    rw [List.getD_eq_getElem _ _ (by rw [hslen]; exact h)]
    exact hpos _ ((List.mem_insertionSort _).mp (List.getElem_mem _))
  have h1 : l.length / 2 < l.length := Nat.div_lt_self hlen one_lt_two
  have h2 : l.length / 2 - 1 < l.length := lt_of_le_of_lt (Nat.sub_le _ _) h1
  unfold median
  by_cases hpar : l.length % 2 = 1
  · rw [if_pos hpar]
    exact hmem _ h1
  · rw [if_neg hpar]
    exact div_pos (add_pos (hmem _ h2) (hmem _ h1)) two_pos

/-- The geometric mean of a row of strictly positive counts is positive. -/
theorem geomMean_pos {n : ℕ} {row : Fin n → ℚ} (h : ∀ j, 0 < row j) :
    0 < geomMean row := by
  apply Real.rpow_pos_of_pos
  apply Finset.prod_pos
  intro j _
  exact_mod_cast h j

/-- Scaling a nonnegative row of counts by a positive constant scales its
geometric mean by that constant. -/
theorem geomMean_smul {n : ℕ} (hn : n ≠ 0) {c : ℚ} (hc : 0 < c)
    (row : Fin n → ℚ) (hrow : ∀ j, 0 ≤ row j) :
    geomMean (fun j => c * row j) = (c : ℝ) * geomMean row := by
  have hcR : (0 : ℝ) < (c : ℝ) := by exact_mod_cast hc
  have hprod : ∏ j, ((c * row j : ℚ) : ℝ) =
      (c : ℝ) ^ n * ∏ j, ((row j : ℚ) : ℝ) := by
    push_cast
    rw [Finset.prod_mul_distrib, Finset.prod_const, Finset.card_univ,
      Fintype.card_fin]
  have hP : (0 : ℝ) ≤ ∏ j, ((row j : ℚ) : ℝ) :=
    Finset.prod_nonneg fun j _ => by exact_mod_cast hrow j
  unfold geomMean
  rw [hprod, Real.mul_rpow (by positivity) hP, ← Real.rpow_natCast (c : ℝ) n,
    ← Real.rpow_mul hcR.le, mul_inv_cancel₀ (Nat.cast_ne_zero.mpr hn),
    Real.rpow_one]

/-- Scaling all counts by a positive constant does not change which genes
are eligible for the median-of-ratios computation. -/
theorem eligibleGenes_smul {m n : ℕ} (counts : Fin m → Fin n → ℚ)
    {c : ℚ} (hc : 0 < c) :
    eligibleGenes (fun g j => c * counts g j) = eligibleGenes counts := by
  unfold eligibleGenes
  apply List.filter_congr
  intro g _
  simp only [decide_eq_decide]
  exact forall_congr' fun j => mul_pos_iff_of_pos_left hc

/-- C5: when size-factor computation succeeds (at least one eligible gene),
it returns the size factors; every computed size factor is strictly
positive; and scaling every sample's counts by one common positive constant
leaves every size factor unchanged. -/
theorem fit_size_factors_pos_and_scale_invariant {m n : ℕ}
    (counts : Fin m → Fin n → ℚ) (hnn : ∀ g j, 0 ≤ counts g j)
    (hok : ∃ g, ∀ j, 0 < counts g j) (c : ℚ) (hc : 0 < c) :
    fit_size_factors counts = Except.ok (fun j => sizeFactor counts j) ∧
    (∀ j, 0 < sizeFactor counts j) ∧
    (∀ j, sizeFactor (fun g j' => c * counts g j') j = sizeFactor counts j) := by
  obtain ⟨g0, hg0⟩ := hok
  have hg0mem : g0 ∈ eligibleGenes counts := by
    unfold eligibleGenes
    rw [List.mem_filter]
    exact ⟨List.mem_finRange g0, decide_eq_true hg0⟩
  have hne : eligibleGenes counts ≠ [] := by
    intro h
    rw [h] at hg0mem
    exact List.not_mem_nil g0 hg0mem
  have heligible : ∀ g ∈ eligibleGenes counts, ∀ j', 0 < counts g j' := by
    intro g hg
    unfold eligibleGenes at hg
    rw [List.mem_filter] at hg
    exact of_decide_eq_true hg.2
  refine ⟨?_, ?_, ?_⟩
  · unfold fit_size_factors
    rw [if_neg]
    rw [Nat.lt_one_iff, List.length_eq_zero]
    exact hne
  · intro j
    apply median_pos
    · simp only [countRatios, ne_eq, List.map_eq_nil_iff]
      exact hne
    · intro x hx
      simp only [countRatios, List.mem_map] at hx
      obtain ⟨g, hg, rfl⟩ := hx
      have hgpos := heligible g hg
      exact div_pos (by exact_mod_cast hgpos j) (geomMean_pos hgpos)
  · intro j
    unfold sizeFactor
    congr 1
    unfold countRatios
    rw [eligibleGenes_smul counts hc]
    apply List.map_congr_left
    intro g hg
    have hgm := geomMean_smul (Nat.pos_iff_ne_zero.mp j.pos) hc
      (fun j' => counts g j') (fun j' => hnn g j')
    rw [hgm]
    push_cast
    exact mul_div_mul_left _ _ (by exact_mod_cast hc.ne')

/-- Concrete check of C5: on a 2-gene, 2-sample matrix with one eligible
gene, the first size factor is positive and unchanged after scaling all
counts by 3. -/
theorem fit_size_factors_pos_and_scale_invariant_witness :
    0 < sizeFactor ![![(1 : ℚ), 2], ![0, 3]] 0 ∧
    sizeFactor (fun g j' => 3 * ![![(1 : ℚ), 2], ![0, 3]] g j') 0 =
      sizeFactor ![![(1 : ℚ), 2], ![0, 3]] 0 :=
  ⟨(fit_size_factors_pos_and_scale_invariant ![![(1 : ℚ), 2], ![0, 3]]
      (by decide) ⟨0, by decide⟩ 3 (by norm_num)).2.1 0,
   (fit_size_factors_pos_and_scale_invariant ![![(1 : ℚ), 2], ![0, 3]]
      (by decide) ⟨0, by decide⟩ 3 (by norm_num)).2.2 0⟩

/-- C6: the Normalizer fails with `DegenerateDesignError` if and only if no
gene is eligible — every gene has at least one zero count — and otherwise
it returns the size factors and does nothing else. -/
theorem fit_size_factors_degenerate_iff {m n : ℕ}
    (counts : Fin m → Fin n → ℚ) (hnn : ∀ g j, 0 ≤ counts g j) :
    (fit_size_factors counts = Except.error DeseqError.DegenerateDesignError ↔
      ∀ g, ∃ j, counts g j = 0) ∧
    ((∃ g, ∀ j, counts g j ≠ 0) →
      fit_size_factors counts = Except.ok (fun j => sizeFactor counts j)) := by
  have hkey : (eligibleGenes counts).length < 1 ↔ ∀ g, ∃ j, counts g j = 0 := by
    rw [Nat.lt_one_iff, List.length_eq_zero]
    unfold eligibleGenes
    rw [List.filter_eq_nil_iff]
    constructor
    · intro h g
      have hg := h g (List.mem_finRange g)
      rw [decide_eq_true_iff] at hg
      push_neg at hg
      obtain ⟨j, hj⟩ := hg
      exact ⟨j, le_antisymm hj (hnn g j)⟩
    · intro h g _
      rw [decide_eq_true_iff]
      push_neg
      obtain ⟨j, hj⟩ := h g
      exact ⟨j, le_of_eq hj⟩
  constructor
  · by_cases hlt : (eligibleGenes counts).length < 1
    · unfold fit_size_factors
      rw [if_pos hlt]
      exact iff_of_true rfl (hkey.mp hlt)
    · unfold fit_size_factors
      rw [if_neg hlt]
      exact iff_of_false (fun h => Except.noConfusion h)
        (fun h => hlt (hkey.mpr h))
  · intro h
    unfold fit_size_factors
    rw [if_neg]
    intro hlt
    obtain ⟨g, hg⟩ := h
    obtain ⟨j, hj⟩ := hkey.mp hlt g
    exact hg j hj

/-- Concrete check of C6: a single gene with a zero count leaves no eligible
gene, and the Normalizer reports `DegenerateDesignError`. -/
theorem fit_size_factors_degenerate_iff_witness :
    fit_size_factors ((fun _ _ => 0) : Fin 1 → Fin 1 → ℚ) =
      Except.error DeseqError.DegenerateDesignError :=
  (fit_size_factors_degenerate_iff ((fun _ _ => 0) : Fin 1 → Fin 1 → ℚ)
    (by decide)).1.mpr (by decide)

/-- C1: after `fit_MAP_dispersions`, a gene's final dispersion is its MAP
(shrunken) estimate, unless its genewise MLE exceeds the trend value by more
than the configured multiple of the prior variance, in which case the final
dispersion is the raw genewise MLE exactly. -/
theorem final_dispersion_MAP_or_genewise {m : ℕ}
    (priorDispVar outlierMult : ℚ) (st : DispersionState m) (g : Fin m) :
    (st.trend g + outlierMult * priorDispVar < st.genewise g →
      fit_MAP_dispersions priorDispVar outlierMult st g = st.genewise g) ∧
    (¬ st.trend g + outlierMult * priorDispVar < st.genewise g →
      fit_MAP_dispersions priorDispVar outlierMult st g = st.MAP g) := by
  constructor <;> intro h <;>
    simp [fit_MAP_dispersions, isDispOutlier, h]

/-- Concrete check of C1: with prior variance 1 and multiple 2, a gene whose
genewise MLE 10 is far above its trend value 1 keeps the MLE, while a gene
whose MLE 1 is not above trend + 2 gets its MAP value 1/2. -/
theorem final_dispersion_MAP_or_genewise_witness :
    fit_MAP_dispersions 1 2
      ⟨![10, 1], ![1, 1], ![2, 1/2]⟩ 0 = 10 ∧
    fit_MAP_dispersions 1 2
      ⟨![10, 1], ![1, 1], ![2, 1/2]⟩ 1 = 1/2 :=
  ⟨(final_dispersion_MAP_or_genewise 1 2 ⟨![10, 1], ![1, 1], ![2, 1/2]⟩ 0).1
      (by norm_num),
   (final_dispersion_MAP_or_genewise 1 2 ⟨![10, 1], ![1, 1], ![2, 1/2]⟩ 1).2
      (by norm_num)⟩

/-- C7: every bounded per-gene optimization terminates: for any update, any
stopping test, any iteration cap and any start, the loop yields a value that
is some `k ≤ maxIter` applications of the update (so at most `maxIter`
steps are ever taken), and when the convergence flag is `false` (the per-gene
warning case) the kept value is exactly the last iterate, `step^[maxIter]`,
rather than an error. -/
theorem boundedIterate_terminates {α : Type} (step : α → α)
    (done : α → α → Bool) (maxIter : ℕ) (x0 : α) :
    ∃ k, k ≤ maxIter ∧
      (boundedIterate step done maxIter x0).1 = step^[k] x0 ∧
      ((boundedIterate step done maxIter x0).2 = false → k = maxIter) := by
  induction maxIter generalizing x0 with
  | zero => exact ⟨0, le_refl 0, rfl, fun _ => rfl⟩
  | succ n ih =>
    by_cases h : done x0 (step x0) = true
    · refine ⟨1, Nat.one_le_iff_ne_zero.mpr (Nat.succ_ne_zero n), ?_, ?_⟩
      · simp [boundedIterate, h]
      · simp [boundedIterate, h]
    · obtain ⟨k, hk, hval, hflag⟩ := ih (step x0)
      refine ⟨k + 1, Nat.succ_le_succ hk, ?_, ?_⟩
      · simpa [boundedIterate, h, Function.iterate_succ_apply] using hval
      · intro hf
        have : k = n := by
          apply hflag
          simpa [boundedIterate, h] using hf
        omega

/-- Concrete check of C7: iterating successor on `0 : ℚ` with a stopping
test that never fires runs for exactly the 3 allowed iterations and keeps
the last iterate. -/
theorem boundedIterate_terminates_witness :
    ∃ k, k ≤ 3 ∧
      (boundedIterate (· + 1) (fun _ _ => false) 3 (0 : ℚ)).1 =
        (· + 1)^[k] (0 : ℚ) ∧
      ((boundedIterate (· + 1) (fun _ _ => false) 3 (0 : ℚ)).2 = false →
        k = 3) :=
  boundedIterate_terminates (· + 1) (fun _ _ => false) 3 (0 : ℚ)

/-- C8: refitting from an already-converged coefficient vector — one whose
IRLS update moves every coefficient by less than the tolerance — returns
after the first iteration a vector differing from the start by less than the
convergence tolerance in every coefficient. -/
theorem fit_LFC_idempotent_up_to_tol {p : ℕ}
    (step : (Fin p → ℚ) → (Fin p → ℚ)) (tol : ℚ) (maxIter : ℕ)
    (x0 : Fin p → ℚ) (hconv : coefConverged tol x0 (step x0) = true)
    (hIter : 1 ≤ maxIter) (i : Fin p) :
    |(fit_LFC_from step tol maxIter x0).1 i - x0 i| < tol := by
  obtain ⟨n, rfl⟩ := Nat.exists_eq_add_of_le hIter
  have hres : (fit_LFC_from step tol (1 + n) x0).1 = step x0 := by
    rw [fit_LFC_from, Nat.add_comm 1 n]
    simp [boundedIterate, hconv]
  rw [hres]
  have := of_decide_eq_true hconv i
  calc |step x0 i - x0 i| = |x0 i - step x0 i| := abs_sub_comm _ _
    _ < tol := this

/-- Concrete check of C8: a coefficient vector fixed by its update is
already converged at tolerance 1, and refitting moves it by less than 1. -/
theorem fit_LFC_idempotent_up_to_tol_witness :
    |(fit_LFC_from (fun x => x) 1 5 (fun _ : Fin 1 => (0 : ℚ))).1 0 -
      (fun _ : Fin 1 => (0 : ℚ)) 0| < 1 :=
  fit_LFC_idempotent_up_to_tol (fun x => x) 1 5 (fun _ => 0)
    (by simp [coefConverged]) (by decide) 0

/-- A value below the seed and below every list element is below the
`foldr min` of the list. -/
theorem le_foldr_min {c init : ℚ} : ∀ {L : List ℚ}, c ≤ init →
    (∀ x ∈ L, c ≤ x) → c ≤ L.foldr min init := by
  intro L
  induction L with
  | nil => intro h _; exact h
  | cons x xs ih =>
    intro h hmem
    exact le_min (hmem x (List.mem_cons_self x xs))
      (ih h fun y hy => hmem y (List.mem_cons_of_mem x hy))

/-- Every BH term of a block of p-values that all dominate `q ≥ 0` also
dominates `q`, as long as the block's indices stay below the total count
`m` (each term multiplies its p-value by `m / rank ≥ 1`). -/
theorem le_bhTerms {m : ℕ} : ∀ (l : List ℚ) (k : ℕ) (q : ℚ), 0 ≤ q →
    (∀ p ∈ l, q ≤ p) → k + l.length ≤ m → ∀ x ∈ bhTerms m k l, q ≤ x := by
  intro l
  induction l with
  | nil => intro k q _ _ _ x hx; exact absurd hx (List.not_mem_nil x)
  | cons p ps ih =>
    intro k q hq hdom hlen x hx
    rw [bhTerms, List.mem_cons] at hx
    rcases hx with rfl | hx'
    · have hqp : q ≤ p := hdom p (List.mem_cons_self p ps)
      have hp0 : 0 ≤ p := le_trans hq hqp
      have hk1 : ((k : ℚ) + 1) ≤ (m : ℚ) := by
        have : k + 1 ≤ m := by
          have := hlen
          simp only [List.length_cons] at this
          omega
        exact_mod_cast this
      have hkpos : (0 : ℚ) < (k : ℚ) + 1 := by positivity
      refine le_trans hqp ?_
      rw [le_div_iff₀ hkpos]
      calc p * ((k : ℚ) + 1) ≤ p * (m : ℚ) :=
            mul_le_mul_of_nonneg_left hk1 hp0
        _ = (m : ℚ) * p := mul_comm _ _
    · refine ih (k + 1) q hq
        (fun p' hp' => hdom p' (List.mem_cons_of_mem p hp')) ?_ x hx'
      simp only [List.length_cons] at hlen
      omega

/-- Each raw p-value of an ascending block within `[0, 1]` is bounded by its
BH-adjusted value, position by position. -/
theorem sorted_le_bhAdjAux {m : ℕ} : ∀ (l : List ℚ) (k : ℕ),
    l.Sorted (· ≤ ·) → (∀ p ∈ l, 0 ≤ p ∧ p ≤ 1) → k + l.length ≤ m →
    List.Forall₂ (· ≤ ·) l (bhAdjAux m k l) := by
  intro l
  induction l with
  | nil => intro k _ _ _; exact List.Forall₂.nil
  | cons p ps ih =>
    intro k hsort hb hlen
    rw [List.sorted_cons] at hsort
    refine List.Forall₂.cons ?_ ?_
    · apply le_foldr_min (hb p (List.mem_cons_self p ps)).2
      apply le_bhTerms (p :: ps) k p (hb p (List.mem_cons_self p ps)).1 ?_ hlen
      intro p' hp'
      rcases List.mem_cons.mp hp' with rfl | hp''
      · exact le_refl p'
      · exact hsort.1 p' hp''
    · refine ih (k + 1) hsort.2
        (fun p' hp' => hb p' (List.mem_cons_of_mem p hp')) ?_
      simp only [List.length_cons] at hlen
      omega

/-- The BH adjustment preserves the number of entries. -/
theorem bhAdjAux_length (m : ℕ) : ∀ (l : List ℚ) (k : ℕ),
    (bhAdjAux m k l).length = l.length := by
  intro l
  induction l with
  | nil => intro _; rfl
  | cons p ps ih => intro k; simp [bhAdjAux, ih (k + 1)]

/-- Unfolding of the BH adjustment at a cons cell: the head is the minimum
of its own clipped BH term and of the adjusted value of the rest. -/
theorem bhAdjAux_cons (m k : ℕ) (p : ℚ) (ps : List ℚ) :
    bhAdjAux m k (p :: ps) =
      min ((m : ℚ) * p / ((k : ℚ) + 1)) ((bhAdjAux m (k + 1) ps).headD 1) ::
        bhAdjAux m (k + 1) ps := by
  cases ps with
  | nil => rfl
  | cons q ps' => rfl

/-- BH-adjusted values of an ascending block are non-decreasing: each entry
is a suffix minimum, so it is bounded by every later entry. -/
theorem bhAdjAux_sorted (m : ℕ) : ∀ (l : List ℚ) (k : ℕ),
    (bhAdjAux m k l).Sorted (· ≤ ·) := by
  intro l
  induction l with
  | nil => intro _; exact List.sorted_nil
  | cons p ps ih =>
    intro k
    rw [bhAdjAux_cons, List.sorted_cons]
    refine ⟨?_, ih (k + 1)⟩
    intro b hb
    refine le_trans (min_le_right _ _) ?_
    have hs := ih (k + 1)
    cases hE : bhAdjAux m (k + 1) ps with
    | nil => rw [hE] at hb; exact absurd hb (List.not_mem_nil b)
    | cons y ys =>
      rw [hE] at hb hs
      rw [List.sorted_cons] at hs
      rcases List.mem_cons.mp hb with rfl | hb'
      · simp
      · simpa using hs.1 b hb'

/-- On a sorted list, the first position of a smaller element is no later
than the first position of a larger one. -/
theorem indexOf_mono_of_sorted {l : List ℚ} (hs : l.Sorted (· ≤ ·))
    {p q : ℚ} (hp : p ∈ l) (hq : q ∈ l) (hpq : p ≤ q) :
    l.indexOf p ≤ l.indexOf q := by
  by_contra hlt
  push_neg at hlt
  have hip : l.indexOf p < l.length := List.indexOf_lt_length.mpr hp
  have hiq : l.indexOf q < l.length := List.indexOf_lt_length.mpr hq
  have hqp : q ≤ p := by
    have := hs.rel_get_of_lt (a := ⟨l.indexOf q, hiq⟩)
      (b := ⟨l.indexOf p, hip⟩) (Fin.mk_lt_mk.mpr hlt)
    rwa [List.indexOf_get, List.indexOf_get] at this
  rw [le_antisymm hpq hqp] at hlt
  exact lt_irrefl _ hlt

/-- C2: the BH adjustment is applied only to the defined p-values.  Every
defined raw p-value maps to a defined adjusted value at least as large; the
assignment is monotone in the raw p-value, so listing the raw p-values in
ascending order lists the adjusted values in non-decreasing order; and every
undefined raw p-value has an undefined adjusted p-value. -/
theorem p_value_adjustment_spec (ps : List (Option ℚ))
    (hb : ∀ p : ℚ, some p ∈ ps → 0 ≤ p ∧ p ≤ 1) :
    (∀ (i : ℕ) (p : ℚ), ps[i]? = some (some p) →
      (p_value_adjustment ps)[i]? = some (some (padjOf ps p)) ∧
      p ≤ padjOf ps p) ∧
    (∀ p q : ℚ, some p ∈ ps → some q ∈ ps → p ≤ q →
      padjOf ps p ≤ padjOf ps q) ∧
    (∀ i : ℕ, ps[i]? = some none →
      (p_value_adjustment ps)[i]? = some none) := by
  have hmemS : ∀ p : ℚ, p ∈ sortedPs ps ↔ some p ∈ ps := by
    intro p
    rw [sortedPs, List.mem_insertionSort, List.mem_filterMap]
    simp
  have hS : (sortedPs ps).Sorted (· ≤ ·) := List.sorted_insertionSort _ _
  have hlenA : (bhAdjSorted (sortedPs ps)).length = (sortedPs ps).length := by
    rw [bhAdjSorted]; exact bhAdjAux_length _ _ 0
  have hsortedA : (bhAdjSorted (sortedPs ps)).Sorted (· ≤ ·) := by
    rw [bhAdjSorted]; exact bhAdjAux_sorted _ _ 0
  have hforall : List.Forall₂ (· ≤ ·) (sortedPs ps)
      (bhAdjSorted (sortedPs ps)) := by
    rw [bhAdjSorted]
    exact sorted_le_bhAdjAux (sortedPs ps) 0 hS
      (fun p hp => hb p ((hmemS p).mp hp)) (by omega)
  have hle : ∀ p : ℚ, some p ∈ ps → p ≤ padjOf ps p := by
    intro p hp
    have hpS : p ∈ sortedPs ps := (hmemS p).mpr hp
    have hidx : (sortedPs ps).indexOf p < (sortedPs ps).length :=
      List.indexOf_lt_length.mpr hpS
    obtain ⟨hlen, hget⟩ := List.forall₂_iff_get.mp hforall
    have hgot := hget ((sortedPs ps).indexOf p) hidx (hlen ▸ hidx)
    rw [List.indexOf_get] at hgot
    rw [padjOf, List.getD_eq_getElem _ _ (by rw [hlenA]; exact hidx)]
    simpa [List.get_eq_getElem] using hgot
  refine ⟨?_, ?_, ?_⟩
  · intro i p hi
    constructor
    · rw [p_value_adjustment, List.getElem?_map, hi]
      rfl
    · exact hle p (List.getElem?_mem hi)
  · intro p q hp hq hpq
    have hpS : p ∈ sortedPs ps := (hmemS p).mpr hp
    have hqS : q ∈ sortedPs ps := (hmemS q).mpr hq
    have hip : (sortedPs ps).indexOf p < (bhAdjSorted (sortedPs ps)).length := by
      rw [hlenA]; exact List.indexOf_lt_length.mpr hpS
    have hiq : (sortedPs ps).indexOf q < (bhAdjSorted (sortedPs ps)).length := by
      rw [hlenA]; exact List.indexOf_lt_length.mpr hqS
    have hidxle := indexOf_mono_of_sorted hS hpS hqS hpq
    rw [padjOf, padjOf, List.getD_eq_getElem _ _ hip,
      List.getD_eq_getElem _ _ hiq]
    have := hsortedA.rel_get_of_le
      (a := ⟨(sortedPs ps).indexOf p, hip⟩)
      (b := ⟨(sortedPs ps).indexOf q, hiq⟩) (Fin.mk_le_mk.mpr hidxle)
    simpa [List.get_eq_getElem] using this
  · intro i hi
    rw [p_value_adjustment, List.getElem?_map, hi]
    rfl

/-- Concrete check of C2: with raw p-values `[1/2, undefined, 1/4]` the
defined p-value 1/2 is bounded by its BH-adjusted value. -/
theorem p_value_adjustment_spec_witness :
    (1 : ℚ)/2 ≤ padjOf [some (1/2), none, some (1/4)] (1/2) :=
  ((p_value_adjustment_spec [some (1/2), none, some (1/4)]
      (by intro p hp; simp at hp; rcases hp with rfl | rfl <;> norm_num)).1
    0 (1/2) rfl).2

/-- C4: the Wald statistic is the coefficient estimate over the square root
of the covariance diagonal entry; a gene not flagged outlier-unfit gets the
two-sided p-value from the standard normal CDF of the absolute statistic;
and every outlier-unfit gene gets an undefined p-value instead of any
numeric value. -/
theorem run_wald_test_spec (normalCdf : ℝ → ℝ) (g : WaldGene) :
    (run_wald_test normalCdf g).1 = g.coef / Real.sqrt g.covDiag ∧
    (g.unfit = true → (run_wald_test normalCdf g).2 = none) ∧
    (g.unfit = false → (run_wald_test normalCdf g).2 =
      some (2 * (1 - normalCdf |g.coef / Real.sqrt g.covDiag|))) := by
  refine ⟨rfl, ?_, ?_⟩ <;> intro h <;>
    simp [run_wald_test, cooks_filtering, waldStatistic, h]

/-- Concrete check of C4: a gene flagged outlier-unfit has an undefined
p-value, and an identical unflagged gene has a defined one. -/
theorem run_wald_test_spec_witness :
    (run_wald_test (fun _ => 1/2) ⟨1, 4, true⟩).2 = none ∧
    (run_wald_test (fun _ => 1/2) ⟨1, 4, false⟩).2 =
      some (2 * (1 - (fun _ : ℝ => (1:ℝ)/2) |1 / Real.sqrt 4|)) :=
  ⟨(run_wald_test_spec (fun _ => 1/2) ⟨1, 4, true⟩).2.1 rfl,
   (run_wald_test_spec (fun _ => 1/2) ⟨1, 4, false⟩).2.2 rfl⟩

/-- C3: the threshold chosen by the independent-filtering search never
yields fewer genes significant at `alpha` than the plain unfiltered BH
adjustment, and whenever no grid threshold improves on the unfiltered
rejection count the corrector returns exactly the plain BH adjustment. -/
theorem independent_filtering_spec (stat : List ℚ) (ps : List (Option ℚ))
    (alpha : ℚ) (grid : List ℚ) :
    rejections (p_value_adjustment ps) alpha ≤
      rejections (independent_filtering stat ps alpha grid) alpha ∧
    ((∀ t ∈ grid, rejAt stat ps alpha t ≤
        rejections (p_value_adjustment ps) alpha) →
      independent_filtering stat ps alpha grid = p_value_adjustment ps) := by
  constructor
  · unfold independent_filtering
    split
    · exact le_refl _
    · split_ifs with hle
      · exact le_refl _
      · push_neg at hle
        exact le_of_lt hle
  · intro hall
    unfold independent_filtering
    split
    · rfl
    · rename_i t hA
      rw [if_pos (hall t (List.argmax_mem (Option.mem_def.mpr hA)))]

/-- Concrete check of C3: with an empty threshold grid the corrector falls
back to the plain BH adjustment. -/
theorem independent_filtering_spec_witness :
    independent_filtering [1] [some (1/100)] (1/20) [] =
      p_value_adjustment [some (1/100)] :=
  (independent_filtering_spec [1] [some (1/100)] (1/20) []).2
    (fun t ht => absurd ht (List.not_mem_nil t))

/-- C10: for every pipeline state, every choice of stage semantics and every
configuration, the one-shot pipeline (`deseq2` then `summary`) produces the
same state as running the stage methods one by one in the step-by-step
notebook's order, so all per-gene results (size factors, dispersions, LFCs,
statistics, p-values, adjusted p-values) coincide. -/
theorem one_shot_eq_step_by_step {σ : Type} (S : Stages σ)
    (cfg : DeseqConfig) (s0 : σ) :
    one_shot_pipeline S cfg s0 = step_by_step_pipeline S cfg s0 := rfl

/-- C9: the LFC stored in the fitted data set is on the natural-log scale and
the results table shows the same coefficient on log2 scale: the displayed
value times `ln 2` recovers the internal value, and raising 2 to the
displayed value yields the same fold change as exponentiating the internal
natural-log coefficient. -/
theorem summary_lfc_is_internal_div_ln2 (l : ℝ) :
    summary_log2_lfc l * Real.log 2 = l ∧
    (2 : ℝ) ^ summary_log2_lfc l = Real.exp l := by
  have hlog : Real.log 2 ≠ 0 := ne_of_gt (Real.log_pos (by norm_num))
  constructor
  · rw [summary_log2_lfc, div_mul_cancel₀ _ hlog]
  · rw [Real.rpow_def_of_pos (by norm_num : (0:ℝ) < 2), summary_log2_lfc,
      mul_div_cancel₀ _ hlog]

end PyDESeq2
